import Mathlib

/-!
Shallow embedding of the storyteller replication core: the patch data model
of `src/patch.rs`, the relational object store of `src/store/sqlite.rs`, and
the peer DAG engine of `src/peer.rs`.  Byte strings are `List Nat`; the
BLAKE3 digest and the Ed25519 primitives are abstracted as function
parameters, since no theorem depends on their internals.
-/

namespace Storyteller

set_option maxRecDepth 100000

/-- The 32-byte patch identifier of `patch.rs`, as a byte list. -/
abbrev ID := List Nat

/-- A patch record, as in `patch.rs`.  The Ed25519 signature is kept as its
two 32-byte components, mirroring `ed25519::Signature`. -/
structure Patch where
  id : ID
  deps : List ID
  author : List Nat
  sigR : List Nat
  sigS : List Nat
  data : List Nat
deriving DecidableEq, Repr

/-- The tail worker for `Vec::dedup`: drops an element equal to its
predecessor, keeping the first element of each run. -/
def dedupAdjacentAux (prev : ID) : List ID → List ID
  | [] => []
  | x :: xs => if x = prev then dedupAdjacentAux prev xs else x :: dedupAdjacentAux x xs

/-- Rust `Vec::dedup` (consecutive duplicates only), as called by the
`FromIterator` instance of `Deps`. -/
def dedupAdjacent : List ID → List ID
  | [] => []
  | x :: xs => x :: dedupAdjacentAux x xs

/-- Concatenation of a list of byte strings. -/
def bytesJoin : List (List Nat) → List Nat
  | [] => []
  | x :: xs => x ++ bytesJoin xs

/-- The hash input assembled by `Patch::hash`: author bytes, then each parent
in the recorded deps order, then the payload. -/
def hashInput (author : List Nat) (deps : List ID) (data : List Nat) : List Nat :=
  author ++ bytesJoin deps ++ data

/-- An Ed25519 signing key: its public verification-key bytes plus its
deterministic signing function, split into the R and S components. -/
structure SigningKey where
  pub : List Nat
  signR : List Nat → List Nat
  signS : List Nat → List Nat

/-- The content hash of a patch (`Patch::hash`), with the BLAKE3 digest
abstracted as `H`. -/
def Patch.hash (H : List Nat → ID) (p : Patch) : ID :=
  H (hashInput p.author p.deps p.data)

/-- Patch construction (`Patch::new`): signs the payload, canonicalizes deps
with `Vec::dedup`, and derives the content id from the resulting record. -/
def Patch.new (H : List Nat → ID) (key : SigningKey) (deps : List ID)
    (data : List Nat) : Patch :=
  let d := dedupAdjacent deps
  let p : Patch :=
    { id := [], deps := d, author := key.pub, sigR := key.signR data,
      sigS := key.signS data, data := data }
  { p with id := p.hash H }

/-- The custom `PartialEq for Deps` of `patch.rs`: equal lengths, and every
element of the right-hand list contained in the left-hand one. -/
def depsEq (d1 d2 : List ID) : Bool :=
  if d1.length = d2.length then d2.all fun x => decide (x ∈ d1) else false

/-- The derived `PartialEq for Patch`: field-wise equality, with the deps
field compared through `depsEq`. -/
def patchEq (p q : Patch) : Bool :=
  decide (p.id = q.id) && depsEq p.deps q.deps && decide (p.author = q.author) &&
    decide (p.sigR = q.sigR) && decide (p.sigS = q.sigS) && decide (p.data = q.data)

/-- LEB128 unsigned varint writer (`varint_rs`), with recursion budget
sufficient for any value below `2 ^ 35`. -/
def writeVarintAux : Nat → Nat → List Nat
  | 0, n => [n]
  | fuel + 1, n =>
    if n < 128 then [n] else (n % 128 + 128) :: writeVarintAux fuel (n / 128)

/-- The u32 varint writer used by `Patch::write`. -/
def writeU32Varint (n : Nat) : List Nat :=
  writeVarintAux 5 n

/-- LEB128 unsigned varint reader worker. -/
def readVarintAux : List Nat → Nat → Nat → Option (Nat × List Nat)
  | [], _, _ => none
  | b :: rest, shift, acc =>
    if b < 128 then some (acc + b * 2 ^ shift, rest)
    else readVarintAux rest (shift + 7) (acc + (b - 128) * 2 ^ shift)

/-- The u32 varint reader used by `Patch::read`. -/
def readVarint (l : List Nat) : Option (Nat × List Nat) :=
  readVarintAux l 0 0

/-- Reads exactly `k` bytes (`Read::read_exact`). -/
def readExact (k : Nat) (l : List Nat) : Option (List Nat × List Nat) :=
  if k ≤ l.length then some (l.take k, l.drop k) else none

/-- The set-style insert of `Deps::insert`: appends unless already present. -/
def depsInsert (ds : List ID) (x : ID) : List ID :=
  if x ∈ ds then ds else ds ++ [x]

/-- Parses `k` 32-byte parent ids, feeding each through `Deps::insert`, as in
the deps loop of `Patch::read`. -/
def readDeps : Nat → List ID → List Nat → Option (List ID × List Nat)
  | 0, acc, l => some (acc, l)
  | k + 1, acc, l =>
    match readExact 32 l with
    | none => none
    | some dr => readDeps k (depsInsert acc dr.1) dr.2

/-- Binary framing writer (`Patch::write`): deps count and payload length as
u32 varints, signature R and S, author, parents in recorded order, payload. -/
def Patch.write (p : Patch) : List Nat :=
  writeU32Varint (p.deps.length % 2 ^ 32) ++ writeU32Varint (p.data.length % 2 ^ 32) ++
    p.sigR ++ p.sigS ++ p.author ++ bytesJoin p.deps ++ p.data

/-- Binary framing reader (`Patch::read`): parses the frame and recomputes
the id from the parsed fields. -/
def Patch.read (H : List Nat → ID) (l : List Nat) : Option Patch :=
  (readVarint l).bind fun a =>
  (readVarint a.2).bind fun b =>
  (readExact 32 b.2).bind fun r =>
  (readExact 32 r.2).bind fun s =>
  (readExact 32 s.2).bind fun au =>
  (readDeps a.1 [] au.2).bind fun ds =>
  (readExact b.1 ds.2).bind fun dt =>
  some { id := H (hashInput au.1 ds.1 dt.1), deps := ds.1, author := au.1,
         sigR := r.1, sigS := s.1, data := dt.1 }

/-- The error kinds of the crate's `Error` enum in `lib.rs`. -/
inductive Err
  | io
  | sqlite
  | verification
  | serde
deriving DecidableEq, Repr

/-- Object-store state (`SqliteStore`): the integrated patches in insertion
order (the `st_patches` table, with `st_rel` edges implied by each stored
patch's deps), and the stash (`st_stash`) in insertion order. -/
structure Store where
  patches : List Patch
  stash : List Patch
deriving DecidableEq, Repr

/-- Membership in the integrated set (`SqliteStore::is_integrated`). -/
def isIntegratedB (st : Store) (d : ID) : Bool :=
  st.patches.any fun q => decide (q.id = d)

/-- Membership in the stash table. -/
def inStashB (st : Store) (d : ID) : Bool :=
  st.stash.any fun q => decide (q.id = d)

/-- Membership in either table (`SqliteStore::contains`). -/
def containsB (st : Store) (d : ID) : Bool :=
  isIntegratedB st d || inStashB st d

/-- `SqliteStore::commit`: fails on the `st_patches.hash` unique constraint,
or on the `st_rel` (child, parent) primary key when an integrated dependency
occurs twice in deps; otherwise appends the patch row and its edges. -/
def storeCommit (st : Store) (p : Patch) : Except Err Store :=
  if isIntegratedB st p.id then .error .sqlite
  else if (p.deps.filter fun d => isIntegratedB st d).Nodup then
    .ok { st with patches := st.patches ++ [p] }
  else .error .sqlite

/-- `SqliteStore::stash`: a plain insert that fails on the `st_stash.hash`
unique constraint. -/
def storeStash (st : Store) (p : Patch) : Except Err Store :=
  if inStashB st p.id then .error .sqlite
  else .ok { st with stash := st.stash ++ [p] }

/-- `SqliteStore::unstash`: returns all stashed patches and clears the
table. -/
def storeUnstash (st : Store) : List Patch × Store :=
  (st.stash, { st with stash := [] })

/-- The heads query exactly as `SqliteStore::heads` writes it: it selects
patches whose `seq_no` never occurs in the `child` column of `st_rel`, i.e.
patches with no recorded dependencies. -/
def storeHeads (st : Store) : List ID :=
  (st.patches.filter fun p => p.deps.isEmpty).map fun p => p.id

/-- Modelled from the spec: the head set H(I) of section 3, the integrated
patches that occur in no integrated patch's deps (patches without
children). -/
def specHeads (st : Store) : List ID :=
  (st.patches.filter fun p => !(st.patches.any fun q => decide (p.id ∈ q.deps))).map
    fun p => p.id

/-- An abstract Ed25519 verification oracle: author bytes, payload, signature
R component, signature S component. -/
abbrev Verifier := List Nat → List Nat → List Nat → List Nat → Bool

/-- Mutable state threaded through one `Peer::integrate` pass: the store, the
accumulated `missing` output, and the `changed` flag. -/
structure IntState where
  store : Store
  missing : List ID
  changed : Bool
deriving DecidableEq, Repr

/-- The deduplicating push into the `missing` output list. -/
def pushMissing (missing : List ID) (d : ID) : List ID :=
  if d ∈ missing then missing else missing ++ [d]

/-- The dependency loop of `Peer::integrate`: for each dep that is not
integrated, the patch is stashed (again), the dep is pushed into `missing`,
and the `stashed` flag is set.  A store error aborts immediately. -/
def stepDeps (p : Patch) : IntState → Bool → List ID → IntState × Bool × Option Err
  | s, stashed, [] => (s, stashed, none)
  | s, stashed, d :: ds =>
    if isIntegratedB s.store d then stepDeps p s stashed ds
    else
      match storeStash s.store p with
      | .error e => (s, stashed, some e)
      | .ok st' =>
        stepDeps p { store := st', missing := pushMissing s.missing d,
                     changed := s.changed } true ds

/-- The body of `Peer::integrate` for a single patch: verify, skip when the
store already contains the id, otherwise run the dependency loop and commit
when nothing was stashed. -/
def stepPatch (V : Verifier) (s : IntState) (p : Patch) : IntState × Option Err :=
  if V p.author p.data p.sigR p.sigS then
    if containsB s.store p.id then (s, none)
    else
      match stepDeps p s false p.deps with
      | (s', _, some e) => (s', some e)
      | (s', true, none) => (s', none)
      | (s', false, none) =>
        match storeCommit s'.store p with
        | .error e => (s', some e)
        | .ok st' => ({ s' with store := st', changed := true }, none)
  else (s, some .verification)

/-- One pass of `Peer::integrate` over the current batch. -/
def runBatch (V : Verifier) : IntState → List Patch → IntState × Option Err
  | s, [] => (s, none)
  | s, p :: ps =>
    match stepPatch V s p with
    | (s', some e) => (s', some e)
    | (s', none) => runBatch V s' ps

theorem stepDeps_nil (p : Patch) (s : IntState) (b : Bool) :
    stepDeps p s b [] = (s, b, none) := rfl

theorem stepDeps_cons_skip (p : Patch) (s : IntState) (b : Bool) (d : ID) (ds : List ID)
    (h : isIntegratedB s.store d = true) :
    stepDeps p s b (d :: ds) = stepDeps p s b ds := by
  conv_lhs => unfold stepDeps
  rw [if_pos h]

theorem stepDeps_cons_err (p : Patch) (s : IntState) (b : Bool) (d : ID) (ds : List ID)
    (h : ¬ isIntegratedB s.store d = true) (e : Err)
    (hst : storeStash s.store p = .error e) :
    stepDeps p s b (d :: ds) = (s, b, some e) := by
  conv_lhs => unfold stepDeps
  rw [if_neg h, hst]

theorem stepDeps_cons_stash (p : Patch) (s : IntState) (b : Bool) (d : ID) (ds : List ID)
    (h : ¬ isIntegratedB s.store d = true) (st' : Store)
    (hst : storeStash s.store p = .ok st') :
    stepDeps p s b (d :: ds)
      = stepDeps p { store := st', missing := pushMissing s.missing d,
                     changed := s.changed } true ds := by
  conv_lhs => unfold stepDeps
  rw [if_neg h, hst]

theorem storeStash_ok (st : Store) (p : Patch) (st' : Store)
    (h : storeStash st p = .ok st') : st' = { st with stash := st.stash ++ [p] } := by
  unfold storeStash at h
  by_cases hin : inStashB st p.id
  · simp [hin] at h
  · rw [if_neg hin] at h
    exact (Except.ok.injEq _ _ ▸ h).symm

theorem stepDeps_patches (p : Patch) :
    ∀ (ds : List ID) (s : IntState) (b : Bool),
      (stepDeps p s b ds).1.store.patches = s.store.patches := by
  intro ds
  induction ds with
  | nil => intro s b; rfl
  | cons d ds ih =>
    intro s b
    by_cases h : isIntegratedB s.store d
    · rw [stepDeps_cons_skip p s b d ds h]; exact ih s b
    · cases hst : storeStash s.store p with
      | error e => rw [stepDeps_cons_err p s b d ds h e hst]
      | ok st' =>
        rw [stepDeps_cons_stash p s b d ds h st' hst, ih]
        rw [storeStash_ok _ _ _ hst]

theorem stepDeps_changed (p : Patch) :
    ∀ (ds : List ID) (s : IntState) (b : Bool),
      (stepDeps p s b ds).1.changed = s.changed := by
  intro ds
  induction ds with
  | nil => intro s b; rfl
  | cons d ds ih =>
    intro s b
    by_cases h : isIntegratedB s.store d
    · rw [stepDeps_cons_skip p s b d ds h]; exact ih s b
    · cases hst : storeStash s.store p with
      | error e => rw [stepDeps_cons_err p s b d ds h e hst]
      | ok st' => rw [stepDeps_cons_stash p s b d ds h st' hst, ih]

theorem stepDeps_stash_len (p : Patch) :
    ∀ (ds : List ID) (s : IntState) (b : Bool),
      (stepDeps p s b ds).1.store.stash.length
        ≤ s.store.stash.length + (if inStashB s.store p.id then 0 else 1) := by
  intro ds
  induction ds with
  | nil => intro s b; simp [stepDeps_nil]
  | cons d ds ih =>
    intro s b
    by_cases h : isIntegratedB s.store d
    · rw [stepDeps_cons_skip p s b d ds h]; exact ih s b
    · cases hst : storeStash s.store p with
      | error e =>
        rw [stepDeps_cons_err p s b d ds h e hst]
        simp
      | ok st' =>
        rw [stepDeps_cons_stash p s b d ds h st' hst]
        have hs := storeStash_ok _ _ _ hst
        subst hs
        have hmem : inStashB { s.store with stash := s.store.stash ++ [p] } p.id = true := by
          simp [inStashB]
        have hb := ih { store := { s.store with stash := s.store.stash ++ [p] },
                        missing := pushMissing s.missing d, changed := s.changed } true
        simp only [hmem, if_pos] at hb
        have hnotin : inStashB s.store p.id = false := by
          unfold storeStash at hst
          by_cases hin : inStashB s.store p.id
          · simp [hin] at hst
          · simpa using hin
        rw [hnotin]
        simp only [Bool.false_eq_true, if_false]
        calc (stepDeps p { store := { s.store with stash := s.store.stash ++ [p] },
                           missing := pushMissing s.missing d,
                           changed := s.changed } true ds).1.store.stash.length
            ≤ (s.store.stash ++ [p]).length + 0 := hb
          _ = s.store.stash.length + 1 := by simp

theorem stepDeps_flag_mono (p : Patch) :
    ∀ (ds : List ID) (s : IntState), (stepDeps p s true ds).2.1 = true := by
  intro ds
  induction ds with
  | nil => intro s; rfl
  | cons d ds ih =>
    intro s
    by_cases h : isIntegratedB s.store d
    · rw [stepDeps_cons_skip p s true d ds h]; exact ih s
    · cases hst : storeStash s.store p with
      | error e => rw [stepDeps_cons_err p s true d ds h e hst]
      | ok st' => rw [stepDeps_cons_stash p s true d ds h st' hst]; exact ih _

theorem stepDeps_false_state (p : Patch) :
    ∀ (ds : List ID) (s : IntState) (b : Bool) (s₁ : IntState) (e : Option Err),
      stepDeps p s b ds = (s₁, false, e) → s₁ = s ∧ b = false := by
  intro ds
  induction ds with
  | nil =>
    intro s b s₁ e h
    rw [stepDeps_nil] at h
    have h1 := congrArg (fun t => t.1) h
    have h2 := congrArg (fun t => t.2.1) h
    exact ⟨h1.symm, h2⟩
  | cons d ds ih =>
    intro s b s₁ e h
    by_cases hi : isIntegratedB s.store d
    · rw [stepDeps_cons_skip p s b d ds hi] at h
      exact ih s b s₁ e h
    · cases hst : storeStash s.store p with
      | error er =>
        rw [stepDeps_cons_err p s b d ds hi er hst] at h
        have h1 := congrArg (fun t => t.1) h
        have h2 := congrArg (fun t => t.2.1) h
        exact ⟨h1.symm, h2⟩
      | ok st' =>
        rw [stepDeps_cons_stash p s b d ds hi st' hst] at h
        have hflag := stepDeps_flag_mono p ds
          { store := st', missing := pushMissing s.missing d, changed := s.changed }
        rw [h] at hflag
        simp at hflag

theorem stepDeps_false_integrated (p : Patch) :
    ∀ (ds : List ID) (s : IntState) (b : Bool) (s₁ : IntState),
      stepDeps p s b ds = (s₁, false, none) →
      ∀ d ∈ ds, isIntegratedB s.store d = true := by
  intro ds
  induction ds with
  | nil => intro s b s₁ _ d hd; cases hd
  | cons d ds ih =>
    intro s b s₁ h d' hd'
    by_cases hi : isIntegratedB s.store d
    · rw [stepDeps_cons_skip p s b d ds hi] at h
      rcases List.mem_cons.mp hd' with rfl | hmem
      · exact hi
      · exact ih s b s₁ h d' hmem
    · exfalso
      cases hst : storeStash s.store p with
      | error er =>
        rw [stepDeps_cons_err p s b d ds hi er hst] at h
        have := congrArg (fun t => t.2.2) h
        simp at this
      | ok st' =>
        rw [stepDeps_cons_stash p s b d ds hi st' hst] at h
        have hflag := stepDeps_flag_mono p ds
          { store := st', missing := pushMissing s.missing d, changed := s.changed }
        rw [h] at hflag
        simp at hflag

theorem stepDeps_stash_mem (p : Patch) :
    ∀ (ds : List ID) (s : IntState) (b : Bool),
      (b = true → inStashB s.store p.id = true) →
      ∀ (s₁ : IntState) (fl : Bool) (e : Option Err),
      stepDeps p s b ds = (s₁, fl, e) → fl = true → inStashB s₁.store p.id = true := by
  intro ds
  induction ds with
  | nil =>
    intro s b hb s₁ fl e h hfl
    rw [stepDeps_nil] at h
    have h1 := congrArg (fun t => t.1) h
    have h2 := congrArg (fun t => t.2.1) h
    simp only at h1 h2
    rw [← h1]
    exact hb (h2.trans hfl)
  | cons d ds ih =>
    intro s b hb s₁ fl e h hfl
    by_cases hi : isIntegratedB s.store d
    · rw [stepDeps_cons_skip p s b d ds hi] at h
      exact ih s b hb s₁ fl e h hfl
    · cases hst : storeStash s.store p with
      | error er =>
        rw [stepDeps_cons_err p s b d ds hi er hst] at h
        have h1 := congrArg (fun t => t.1) h
        have h2 := congrArg (fun t => t.2.1) h
        simp only at h1 h2
        rw [← h1]
        exact hb (h2.trans hfl)
      | ok st' =>
        rw [stepDeps_cons_stash p s b d ds hi st' hst] at h
        refine ih _ true ?_ s₁ fl e h hfl
        intro _
        rw [storeStash_ok _ _ _ hst]
        simp [inStashB]

theorem storeCommit_ok (st : Store) (p : Patch) (st' : Store)
    (h : storeCommit st p = .ok st') :
    st' = { st with patches := st.patches ++ [p] } := by
  unfold storeCommit at h
  by_cases h1 : isIntegratedB st p.id
  · simp [h1] at h
  · rw [if_neg h1] at h
    by_cases h2 : (p.deps.filter fun d => isIntegratedB st d).Nodup
    · rw [if_pos h2] at h
      injection h with h3
      exact h3.symm
    · simp [h2] at h

theorem stepPatch_stash_len (V : Verifier) (s : IntState) (p : Patch) :
    (stepPatch V s p).1.store.stash.length ≤ s.store.stash.length + 1 := by
  unfold stepPatch
  by_cases hv : V p.author p.data p.sigR p.sigS
  · rw [if_pos hv]
    by_cases hc : containsB s.store p.id
    · simp [hc]
    · rw [if_neg hc]
      rcases hsd : stepDeps p s false p.deps with ⟨s', fl, e⟩
      have hlen : s'.store.stash.length ≤ s.store.stash.length + 1 := by
        have := stepDeps_stash_len p p.deps s false
        rw [hsd] at this
        exact this.trans (by split <;> simp)
      cases e with
      | some er => simpa using hlen
      | none =>
        cases fl with
        | true => simpa using hlen
        | false =>
          cases hcm : storeCommit s'.store p with
          | error er => simpa [hcm] using hlen
          | ok st' =>
            simp only [hcm]
            have hsteq : st'.stash = s'.store.stash := by
              rw [storeCommit_ok s'.store p st' hcm]
            simpa [hsteq] using hlen
  · simp [hv]

theorem stepPatch_changed_cases (V : Verifier) (s : IntState) (p : Patch) :
    (stepPatch V s p).1.changed = s.changed ∨
      ((stepPatch V s p).1.changed = true ∧
        (stepPatch V s p).1.store.stash = s.store.stash) := by
  unfold stepPatch
  by_cases hv : V p.author p.data p.sigR p.sigS
  · rw [if_pos hv]
    by_cases hc : containsB s.store p.id
    · simp [hc]
    · rw [if_neg hc]
      rcases hsd : stepDeps p s false p.deps with ⟨s', fl, e⟩
      have hch : s'.changed = s.changed := by
        have := stepDeps_changed p p.deps s false
        rw [hsd] at this
        exact this
      cases e with
      | some er => simp [hch]
      | none =>
        cases fl with
        | true => simp [hch]
        | false =>
          obtain ⟨rfl, -⟩ := stepDeps_false_state p p.deps s false s' none hsd
          cases hcm : storeCommit s'.store p with
          | error er => simp [hcm, hch]
          | ok st' =>
            right
            constructor
            · simp [hcm]
            · simp only [hcm]
              rw [storeCommit_ok s'.store p st' hcm]
  · simp [hv]

theorem runBatch_nil (V : Verifier) (s : IntState) : runBatch V s [] = (s, none) := rfl

theorem runBatch_cons (V : Verifier) (s : IntState) (p : Patch) (ps : List Patch) :
    runBatch V s (p :: ps)
      = match stepPatch V s p with
        | (s', some e) => (s', some e)
        | (s', none) => runBatch V s' ps := rfl

theorem runBatch_stash_le (V : Verifier) :
    ∀ (l : List Patch) (s : IntState),
      (runBatch V s l).1.store.stash.length ≤ s.store.stash.length + l.length := by
  intro l
  induction l with
  | nil => intro s; simp [runBatch_nil]
  | cons p ps ih =>
    intro s
    rw [runBatch_cons]
    rcases hsp : stepPatch V s p with ⟨s₁, e₁⟩
    have hlen : s₁.store.stash.length ≤ s.store.stash.length + 1 := by
      have := stepPatch_stash_len V s p
      rw [hsp] at this
      exact this
    cases e₁ with
    | some er =>
      simp only []
      calc s₁.store.stash.length ≤ s.store.stash.length + 1 := hlen
        _ ≤ s.store.stash.length + (p :: ps).length := by simp [Nat.add_le_add_left]
    | none =>
      simp only []
      calc (runBatch V s₁ ps).1.store.stash.length
          ≤ s₁.store.stash.length + ps.length := ih s₁
        _ ≤ s.store.stash.length + 1 + ps.length := by omega
        _ = s.store.stash.length + (p :: ps).length := by simp; omega

theorem runBatch_changed_stash (V : Verifier) :
    ∀ (l : List Patch) (s : IntState) (s' : IntState) (e : Option Err),
      runBatch V s l = (s', e) → s.changed = false → s'.changed = true →
      s'.store.stash.length + 1 ≤ s.store.stash.length + l.length := by
  intro l
  induction l with
  | nil =>
    intro s s' e h h0 h1
    rw [runBatch_nil] at h
    have := congrArg (fun t => t.1) h
    simp only at this
    rw [← this] at h1
    rw [h0] at h1
    cases h1
  | cons p ps ih =>
    intro s s' e h h0 h1
    rw [runBatch_cons] at h
    rcases hsp : stepPatch V s p with ⟨s₁, e₁⟩
    rw [hsp] at h
    have hlen : s₁.store.stash.length ≤ s.store.stash.length + 1 := by
      have := stepPatch_stash_len V s p
      rw [hsp] at this
      exact this
    rcases stepPatch_changed_cases V s p with hsame | ⟨htrue, hstash⟩
    all_goals rw [hsp] at *
    · -- the step preserved the changed flag
      cases e₁ with
      | some er =>
        simp only [] at h
        have h1' := congrArg (fun t => t.1) h
        simp only at h1'
        rw [← h1'] at h1
        rw [hsame, h0] at h1
        cases h1
      | none =>
        simp only [] at h
        have := ih s₁ s' e h (by rw [hsame, h0]) h1
        calc s'.store.stash.length + 1 ≤ s₁.store.stash.length + ps.length := this
          _ ≤ s.store.stash.length + 1 + ps.length := by omega
          _ = s.store.stash.length + (p :: ps).length := by simp; omega
    · -- the step committed: changed is true and the stash is untouched
      simp only at htrue hstash
      cases e₁ with
      | some er =>
        simp only [] at h
        have h1' := congrArg (fun t => t.1) h
        simp only at h1'
        rw [← h1']
        rw [hstash]
        simp [Nat.succ_le_succ, Nat.add_le_add_left]
      | none =>
        simp only [] at h
        have hb := runBatch_stash_le V ps s₁
        rw [h] at hb
        simp only at hb
        calc s'.store.stash.length + 1 ≤ s₁.store.stash.length + ps.length + 1 := by omega
          _ = s.store.stash.length + ps.length + 1 := by rw [hstash]
          _ = s.store.stash.length + (p :: ps).length := by simp; omega

/-- The fixpoint loop of `Peer::integrate`: run the current batch, then, when
the store changed, refresh the cached heads and feed the drained stash back
in.  Returns the cached heads, the store, the `missing` list, and the error
slot (`none` models an `Ok` return). -/
def integrateLoop (V : Verifier) (heads : List ID) (st : Store) (missing : List ID)
    (batch : List Patch) : List ID × Store × List ID × Option Err :=
  match h : runBatch V ⟨st, missing, false⟩ batch with
  | (s', some e) => (heads, s'.store, s'.missing, some e)
  | (s', none) =>
    if hc : s'.changed = true then
      integrateLoop V (storeHeads s'.store) (storeUnstash s'.store).2 s'.missing
        (storeUnstash s'.store).1
    else (heads, s'.store, s'.missing, none)
termination_by batch.length + st.stash.length
decreasing_by
  have h2 : s'.store.stash.length + 1 ≤ st.stash.length + batch.length := by
    simpa using runBatch_changed_stash V batch ⟨st, missing, false⟩ s' none h rfl hc
  simp only [storeUnstash, List.length_nil]
  omega

theorem integrateLoop_err (V : Verifier) (heads : List ID) (st : Store)
    (missing : List ID) (batch : List Patch) (s' : IntState) (e : Err)
    (h : runBatch V ⟨st, missing, false⟩ batch = (s', some e)) :
    integrateLoop V heads st missing batch = (heads, s'.store, s'.missing, some e) := by
  rw [integrateLoop.eq_def]
  split
  next s₂ e₂ heq =>
    rw [h] at heq
    have h1 := congrArg (fun t => t.1) heq
    have h2 := congrArg (fun t => t.2) heq
    simp only at h1 h2
    injection h2 with h2
    rw [h1, h2]
  next s₂ heq =>
    rw [h] at heq
    have h2 := congrArg (fun t => t.2) heq
    simp at h2

theorem integrateLoop_done (V : Verifier) (heads : List ID) (st : Store)
    (missing : List ID) (batch : List Patch) (s' : IntState)
    (h : runBatch V ⟨st, missing, false⟩ batch = (s', none))
    (hc : s'.changed = false) :
    integrateLoop V heads st missing batch = (heads, s'.store, s'.missing, none) := by
  rw [integrateLoop.eq_def]
  split
  next s₂ e₂ heq =>
    rw [h] at heq
    have h2 := congrArg (fun t => t.2) heq
    simp at h2
  next s₂ heq =>
    rw [h] at heq
    have h1 := congrArg (fun t => t.1) heq
    simp only at h1
    subst h1
    rw [dif_neg]
    rw [hc]
    simp

theorem integrateLoop_cont (V : Verifier) (heads : List ID) (st : Store)
    (missing : List ID) (batch : List Patch) (s' : IntState)
    (h : runBatch V ⟨st, missing, false⟩ batch = (s', none))
    (hc : s'.changed = true) :
    integrateLoop V heads st missing batch
      = integrateLoop V (storeHeads s'.store) (storeUnstash s'.store).2 s'.missing
          (storeUnstash s'.store).1 := by
  conv_lhs => rw [integrateLoop.eq_def]
  split
  next s₂ e₂ heq =>
    rw [h] at heq
    have h2 := congrArg (fun t => t.2) heq
    simp at h2
  next s₂ heq =>
    rw [h] at heq
    have h1 := congrArg (fun t => t.1) heq
    simp only at h1
    subst h1
    rw [dif_pos hc]

/-- Dependency closure of the integrated set: every dep of every integrated
patch is itself integrated. -/
def Closed (l : List Patch) : Prop :=
  ∀ p ∈ l, ∀ d ∈ p.deps, ∃ q ∈ l, q.id = d

theorem isIntegratedB_iff (st : Store) (d : ID) :
    isIntegratedB st d = true ↔ ∃ q ∈ st.patches, q.id = d := by
  simp [isIntegratedB, List.any_eq_true]

theorem Closed_append (l : List Patch) (p : Patch) (hcl : Closed l)
    (hp : ∀ d ∈ p.deps, ∃ q ∈ l, q.id = d) : Closed (l ++ [p]) := by
  intro q hq d hd
  rcases List.mem_append.mp hq with hq | hq
  · obtain ⟨r, hr, hrid⟩ := hcl q hq d hd
    exact ⟨r, List.mem_append.mpr (Or.inl hr), hrid⟩
  · rcases List.mem_singleton.mp hq
    obtain ⟨r, hr, hrid⟩ := hp d hd
    exact ⟨r, List.mem_append.mpr (Or.inl hr), hrid⟩

theorem stepPatch_closed (V : Verifier) (s : IntState) (p : Patch)
    (hcl : Closed s.store.patches) : Closed (stepPatch V s p).1.store.patches := by
  unfold stepPatch
  by_cases hv : V p.author p.data p.sigR p.sigS
  · rw [if_pos hv]
    by_cases hc : containsB s.store p.id
    · rw [if_pos hc]; exact hcl
    · rw [if_neg hc]
      rcases hsd : stepDeps p s false p.deps with ⟨s', fl, e⟩
      have hpat : s'.store.patches = s.store.patches := by
        have := stepDeps_patches p p.deps s false
        rw [hsd] at this
        exact this
      cases e with
      | some er => simpa [hpat] using hcl
      | none =>
        cases fl with
        | true => simpa [hpat] using hcl
        | false =>
          obtain ⟨h9, -⟩ := stepDeps_false_state p p.deps s false s' none hsd
          subst h9
          cases hcm : storeCommit s'.store p with
          | error er => simpa [hcm] using hcl
          | ok st' =>
            have hint := stepDeps_false_integrated p p.deps s' false s' hsd
            have happ : Closed (s'.store.patches ++ [p]) :=
              Closed_append s'.store.patches p hcl fun d hd =>
                (isIntegratedB_iff s'.store d).mp (hint d hd)
            have hss := storeCommit_ok s'.store p st' hcm
            simpa [hcm, hss] using happ
  · rw [if_neg hv]; exact hcl

theorem runBatch_closed (V : Verifier) :
    ∀ (l : List Patch) (s : IntState), Closed s.store.patches →
      Closed (runBatch V s l).1.store.patches := by
  intro l
  induction l with
  | nil => intro s h; simpa [runBatch_nil] using h
  | cons p ps ih =>
    intro s h
    rw [runBatch_cons]
    rcases hsp : stepPatch V s p with ⟨s₁, e₁⟩
    have h₁ : Closed s₁.store.patches := by
      have := stepPatch_closed V s p h
      rw [hsp] at this
      exact this
    cases e₁ with
    | some er => simpa using h₁
    | none => simpa using ih s₁ h₁

theorem integrateLoop_closed (V : Verifier) :
    ∀ (n : Nat) (heads : List ID) (st : Store) (missing : List ID) (batch : List Patch),
      batch.length + st.stash.length ≤ n → Closed st.patches →
      Closed (integrateLoop V heads st missing batch).2.1.patches := by
  intro n
  induction n with
  | zero =>
    intro heads st missing batch hn hcl
    rcases hrb : runBatch V ⟨st, missing, false⟩ batch with ⟨s', e⟩
    have hcl' : Closed s'.store.patches := by
      have := runBatch_closed V batch ⟨st, missing, false⟩ hcl
      rw [hrb] at this
      exact this
    cases e with
    | some er => rw [integrateLoop_err V heads st missing batch s' er hrb]; exact hcl'
    | none =>
      by_cases hch : s'.changed = true
      · exfalso
        have hdec := runBatch_changed_stash V batch ⟨st, missing, false⟩ s' none hrb rfl hch
        simp only at hdec
        omega
      · rw [integrateLoop_done V heads st missing batch s' hrb
          (Bool.not_eq_true _ ▸ hch)]
        exact hcl'
  | succ n ih =>
    intro heads st missing batch hn hcl
    rcases hrb : runBatch V ⟨st, missing, false⟩ batch with ⟨s', e⟩
    have hcl' : Closed s'.store.patches := by
      have := runBatch_closed V batch ⟨st, missing, false⟩ hcl
      rw [hrb] at this
      exact this
    cases e with
    | some er => rw [integrateLoop_err V heads st missing batch s' er hrb]; exact hcl'
    | none =>
      by_cases hch : s'.changed = true
      · rw [integrateLoop_cont V heads st missing batch s' hrb hch]
        have hdec := runBatch_changed_stash V batch ⟨st, missing, false⟩ s' none hrb rfl hch
        simp only at hdec
        apply ih
        · simp only [storeUnstash, List.length_nil]
          omega
        · exact hcl'
      · rw [integrateLoop_done V heads st missing batch s' hrb
          (Bool.not_eq_true _ ▸ hch)]
        exact hcl'

/-- Peer state: the cached heads vector and the owned store (`peer.rs`). -/
structure PeerState where
  heads : List ID
  store : Store
deriving DecidableEq, Repr

/-- `Peer::integrate`, with the verification oracle `V` standing for
`Patch::verify`. -/
def Peer.integrate (V : Verifier) (p : PeerState) (batch : List Patch) :
    List ID × Store × List ID × Option Err :=
  integrateLoop V p.heads p.store [] batch

/-- `Peer::commit`: author a patch over the cached heads, commit it, and on
success replace the cached heads by the new patch's id. -/
def Peer.commit (H : List Nat → ID) (key : SigningKey) (p : PeerState)
    (data : List Nat) : Except Err Patch × PeerState :=
  let patch := Patch.new H key p.heads data
  match storeCommit p.store patch with
  | .error e => (.error e, p)
  | .ok st' => (.ok patch, { heads := [patch.id], store := st' })

/-- The all-zero 32-byte string. -/
def zeros32 : List Nat := List.replicate 32 0

/-- The all-one 32-byte string. -/
def ones32 : List Nat := List.replicate 32 1

/-- The all-two 32-byte string. -/
def twos32 : List Nat := List.replicate 32 2

/-- A toy 32-byte digest instantiating the abstract BLAKE3 parameter for
concrete runs: the byte sum followed by 31 zero bytes. -/
def sumHash (l : List Nat) : ID := l.foldl (· + ·) 0 :: List.replicate 31 0

/-- A toy signing key producing all-zero signatures. -/
def keyC : SigningKey := ⟨zeros32, fun _ => zeros32, fun _ => zeros32⟩

/-- The always-accepting verification oracle. -/
def trueV : Verifier := fun _ _ _ _ => true

/-- The empty store. -/
def emptyStore : Store := ⟨[], []⟩

/-- A fresh peer over the empty store, as built by `Peer::new`. -/
def peer0 : PeerState := ⟨[], emptyStore⟩

/-- Root patch A of the test scenarios. -/
def pA : Patch := Patch.new sumHash keyC [] [1]

/-- Root patch B. -/
def pB : Patch := Patch.new sumHash keyC [pA.id] [2]

/-- Patch E with the two parents A and B. -/
def pE : Patch := Patch.new sumHash keyC [pA.id, pB.id] [3]

/-- A patch with two distinct never-integrated parents. -/
def pTwo : Patch := Patch.new sumHash keyC [ones32, twos32] [1]

theorem integrate_first_pass_err (V : Verifier) (peer : PeerState)
    (batch : List Patch) (s₁ : IntState) (e : Err)
    (h1 : runBatch V ⟨peer.store, [], false⟩ batch = (s₁, some e)) :
    Peer.integrate V peer batch = (peer.heads, s₁.store, s₁.missing, some e) := by
  unfold Peer.integrate
  exact integrateLoop_err V peer.heads peer.store [] batch s₁ e h1

theorem integrate_two_pass (V : Verifier) (peer : PeerState) (batch : List Patch)
    (s₁ : IntState)
    (h1 : runBatch V ⟨peer.store, [], false⟩ batch = (s₁, none))
    (hc : s₁.changed = true) (hst : s₁.store.stash = []) :
    Peer.integrate V peer batch = (storeHeads s₁.store, s₁.store, s₁.missing, none) := by
  unfold Peer.integrate
  rw [integrateLoop_cont V peer.heads peer.store [] batch s₁ h1 hc]
  have hsu : { s₁.store with stash := ([] : List Patch) } = s₁.store := by
    rw [← hst]
  simp only [storeUnstash]
  rw [hst, hsu]
  exact integrateLoop_done V (storeHeads s₁.store) s₁.store s₁.missing []
    ⟨s₁.store, s₁.missing, false⟩ rfl rfl

theorem stepPatch_verify_true (V : Verifier) (s : IntState) (p : Patch)
    (s' : IntState) (h : stepPatch V s p = (s', none)) :
    V p.author p.data p.sigR p.sigS = true := by
  by_cases hv : V p.author p.data p.sigR p.sigS
  · exact hv
  · unfold stepPatch at h
    rw [if_neg hv] at h
    have := congrArg (fun t => t.2) h
    simp at this

theorem stepPatch_contains (V : Verifier) (s : IntState) (p : Patch)
    (s' : IntState) (h : stepPatch V s p = (s', none)) :
    containsB s'.store p.id = true := by
  have hv := stepPatch_verify_true V s p s' h
  unfold stepPatch at h
  rw [if_pos hv] at h
  by_cases hc : containsB s.store p.id
  · rw [if_pos hc] at h
    have h1 := congrArg (fun t => t.1) h
    simp only at h1
    rw [← h1]
    exact hc
  · rw [if_neg hc] at h
    rcases hsd : stepDeps p s false p.deps with ⟨s₁, fl, e⟩
    rw [hsd] at h
    cases e with
    | some er => simp at h
    | none =>
      cases fl with
      | true =>
        simp only [Prod.mk.injEq] at h
        obtain ⟨h1, -⟩ := h
        have hmem := stepDeps_stash_mem p p.deps s false (by simp) s₁ true none hsd rfl
        rw [← h1]
        simp [containsB, hmem]
      | false =>
        obtain ⟨h9, -⟩ := stepDeps_false_state p p.deps s false s₁ none hsd
        subst h9
        cases hcm : storeCommit s₁.store p with
        | error er => simp [hcm] at h
        | ok st' =>
          simp only [hcm, Prod.mk.injEq] at h
          obtain ⟨h1, -⟩ := h
          rw [← h1]
          have hss := storeCommit_ok s₁.store p st' hcm
          subst hss
          simp [containsB, isIntegratedB]

theorem stepPatch_skip (V : Verifier) (s : IntState) (p : Patch)
    (hv : V p.author p.data p.sigR p.sigS = true)
    (hc : containsB s.store p.id = true) : stepPatch V s p = (s, none) := by
  unfold stepPatch
  rw [if_pos hv, if_pos hc]

theorem runBatch_dup (V : Verifier) (s : IntState) (p : Patch)
    (hv : V p.author p.data p.sigR p.sigS = true) :
    runBatch V s [p, p, p] = runBatch V s [p] := by
  rcases hsp : stepPatch V s p with ⟨s₁, e₁⟩
  cases e₁ with
  | some er => simp [runBatch_cons, hsp]
  | none =>
    have hcon := stepPatch_contains V s p s₁ hsp
    have hskip := stepPatch_skip V s₁ p hv hcon
    simp [runBatch_cons, hsp, hskip]

/-- C1: a batch containing a valid patch with two (or more) unmet parents is
claimed to be stashed with all unmet parents reported in `missing` and an Ok
return; the code instead calls `store.stash` once per unmet dependency, and
the second insert violates the `st_stash.hash` unique constraint, so
`integrate` returns a storage error, having stashed the patch once and
recorded only the first unmet parent. -/
theorem c1_two_unmet_parents_error :
    Peer.integrate trueV peer0 [pTwo]
      = ([], ⟨[], [pTwo]⟩, [ones32], some Err.sqlite) := by
  have h := integrate_first_pass_err trueV peer0 [pTwo]
    ⟨⟨[], [pTwo]⟩, [ones32], false⟩ Err.sqlite (by decide)
  rw [h]
  decide

/-- C2: order-independence of `integrate` fails.  The dependency-closed set
with A, B and E (whose parents are A and B) integrates cleanly in order
[A, B, E], but the permutation [E, A, B] makes the first pass stash E twice
(once per unmet parent), hitting the stash unique constraint, so the call
errors and integrates nothing. -/
theorem c2_integrate_order_dependent :
    Peer.integrate trueV peer0 [pA, pB, pE]
        = ([pA.id], ⟨[pA, pB, pE], []⟩, [], none) ∧
      Peer.integrate trueV peer0 [pE, pA, pB]
        = ([], ⟨[], [pE]⟩, [pA.id], some Err.sqlite) := by
  constructor
  · have h := integrate_two_pass trueV peer0 [pA, pB, pE]
      ⟨⟨[pA, pB, pE], []⟩, [], true⟩ (by decide) (by decide) (by decide)
    rw [h]
    decide
  · have h := integrate_first_pass_err trueV peer0 [pE, pA, pB]
      ⟨⟨[], [pE]⟩, [pA.id], false⟩ Err.sqlite (by decide)
    rw [h]
    decide

/-- C3: after every `Peer::integrate` call that returns Ok on a
dependency-closed store, the integrated set is still dependency-closed:
patches are only committed once every dependency is integrated. -/
theorem c3_integrate_preserves_closure (V : Verifier) (peer : PeerState)
    (batch : List Patch) (heads' : List ID) (st' : Store) (missing' : List ID)
    (hcl : Closed peer.store.patches)
    (h : Peer.integrate V peer batch = (heads', st', missing', none)) :
    Closed st'.patches := by
  have hmain := integrateLoop_closed V (batch.length + peer.store.stash.length)
    peer.heads peer.store [] batch le_rfl hcl
  unfold Peer.integrate at h
  rw [h] at hmain
  exact hmain

theorem c3_witness : Closed (Store.mk [pA, pB] []).patches := by
  have heval : Peer.integrate trueV peer0 [pA, pB]
      = ([pA.id], ⟨[pA, pB], []⟩, [], none) := by
    have h := integrate_two_pass trueV peer0 [pA, pB]
      ⟨⟨[pA, pB], []⟩, [], true⟩ (by decide) (by decide) (by decide)
    rw [h]
    decide
  exact c3_integrate_preserves_closure trueV peer0 [pA, pB] [pA.id]
    ⟨[pA, pB], []⟩ []
    (fun p hp => absurd hp (List.not_mem_nil p)) heval

/-- C8: the cached heads after integrating the chain A ← B equal the store's
heads query result [A], but the spec's head set H(I) (patches with no
children) is [B]: the SQL selects patches that are no `child` in `st_rel`
(patches without parents, the roots) instead of patches that are no parent
(patches without children). -/
theorem c8_heads_query_returns_roots :
    Peer.integrate trueV peer0 [pA, pB] = ([pA.id], ⟨[pA, pB], []⟩, [], none) ∧
      storeHeads ⟨[pA, pB], []⟩ = [pA.id] ∧
      specHeads ⟨[pA, pB], []⟩ = [pB.id] ∧
      pA.id ≠ pB.id := by
  refine ⟨?_, by decide, by decide, by decide⟩
  have h := integrate_two_pass trueV peer0 [pA, pB]
    ⟨⟨[pA, pB], []⟩, [], true⟩ (by decide) (by decide) (by decide)
  rw [h]
  decide

/-- C9: duplicate patches in one batch are idempotent: integrating
[p, p, p] from any peer state returns exactly what integrating [p] does,
with the same final heads, store, missing list and error slot. -/
theorem c9_duplicate_batch_idempotent (V : Verifier) (peer : PeerState) (p : Patch)
    (hv : V p.author p.data p.sigR p.sigS = true) :
    Peer.integrate V peer [p, p, p] = Peer.integrate V peer [p] := by
  unfold Peer.integrate
  have hrb := runBatch_dup V ⟨peer.store, [], false⟩ p hv
  rcases h : runBatch V ⟨peer.store, [], false⟩ [p] with ⟨s', e⟩
  cases e with
  | some er =>
    rw [integrateLoop_err V peer.heads peer.store [] [p, p, p] s' er (hrb.trans h),
      integrateLoop_err V peer.heads peer.store [] [p] s' er h]
  | none =>
    by_cases hc : s'.changed = true
    · rw [integrateLoop_cont V peer.heads peer.store [] [p, p, p] s' (hrb.trans h) hc,
        integrateLoop_cont V peer.heads peer.store [] [p] s' h hc]
    · rw [integrateLoop_done V peer.heads peer.store [] [p, p, p] s' (hrb.trans h)
        (Bool.not_eq_true _ ▸ hc),
        integrateLoop_done V peer.heads peer.store [] [p] s' h
          (Bool.not_eq_true _ ▸ hc)]

theorem c9_witness :
    Peer.integrate trueV peer0 [pA, pA, pA] = Peer.integrate trueV peer0 [pA] :=
  c9_duplicate_batch_idempotent trueV peer0 pA rfl

/-- C10: when the store's commit fails inside `Peer::commit`, that error is
returned to the caller and the peer state (with its cached heads) is left
untouched: the cache is replaced only after a successful store commit. -/
theorem c10_commit_error_preserves_peer (H : List Nat → ID) (key : SigningKey)
    (peer : PeerState) (data : List Nat) (e : Err)
    (h : storeCommit peer.store (Patch.new H key peer.heads data) = .error e) :
    Peer.commit H key peer data = (.error e, peer) := by
  simp only [Peer.commit]
  rw [h]

/-- A raw patch occupying the all-zero id, to force a hash collision under
the constant digest below. -/
def qBlock : Patch := ⟨zeros32, [], zeros32, zeros32, zeros32, []⟩

/-- A peer whose store already holds `qBlock`. -/
def peerBlock : PeerState := ⟨[], ⟨[qBlock], []⟩⟩

/-- The constant digest mapping every input to 32 zero bytes. -/
def zeroHash : List Nat → ID := fun _ => zeros32

theorem c10_witness :
    Peer.commit zeroHash keyC peerBlock [5] = (Except.error Err.sqlite, peerBlock) :=
  c10_commit_error_preserves_peer zeroHash keyC peerBlock [5] Err.sqlite rfl

theorem readVarintAux_write (fuel : Nat) :
    ∀ (n : Nat), n < 128 ^ fuel → ∀ (rest : List Nat) (shift acc : Nat),
      readVarintAux (writeVarintAux fuel n ++ rest) shift acc
        = some (acc + n * 2 ^ shift, rest) := by
  induction fuel with
  | zero =>
    intro n hn rest shift acc
    have h0 : n = 0 := by simpa using hn
    subst h0
    simp [writeVarintAux, readVarintAux]
  | succ fuel ih =>
    intro n hn rest shift acc
    by_cases h : n < 128
    · simp [writeVarintAux, h, readVarintAux]
    · have hb : ¬ (n % 128 + 128 < 128) := by omega
      simp only [writeVarintAux, if_neg h, List.cons_append]
      rw [readVarintAux, if_neg hb]
      have hdiv : n / 128 < 128 ^ fuel := by
        apply Nat.div_lt_of_lt_mul
        rw [Nat.mul_comm, ← pow_succ]
        exact hn
      rw [ih (n / 128) hdiv rest (shift + 7) (acc + (n % 128 + 128 - 128) * 2 ^ shift)]
      have hmod : n % 128 + 128 - 128 = n % 128 := by omega
      have h128 : (2 : Nat) ^ (shift + 7) = 2 ^ shift * 128 := by
        rw [pow_add]
        norm_num
      rw [hmod]
      have harith : acc + n % 128 * 2 ^ shift + n / 128 * 2 ^ (shift + 7)
          = acc + n * 2 ^ shift := by
        calc acc + n % 128 * 2 ^ shift + n / 128 * 2 ^ (shift + 7)
            = acc + (n % 128 + 128 * (n / 128)) * 2 ^ shift := by rw [h128]; ring
          _ = acc + n * 2 ^ shift := by rw [Nat.mod_add_div]
      rw [harith]

theorem readVarint_write (n : Nat) (hn : n < 2 ^ 32) (rest : List Nat) :
    readVarint (writeU32Varint n ++ rest) = some (n, rest) := by
  have h5 : n < 128 ^ 5 := by
    calc n < 2 ^ 32 := hn
      _ ≤ 128 ^ 5 := by norm_num
  have := readVarintAux_write 5 n h5 rest 0 0
  simpa [readVarint, writeU32Varint] using this

theorem readExact_append (l rest : List Nat) (k : Nat) (hk : l.length = k) :
    readExact k (l ++ rest) = some (l, rest) := by
  subst hk
  unfold readExact
  rw [if_pos (by simp)]
  rw [List.take_left, List.drop_left]

theorem readDeps_succ (k : Nat) (acc : List ID) (l : List Nat) :
    readDeps (k + 1) acc l
      = match readExact 32 l with
        | none => none
        | some dr => readDeps k (depsInsert acc dr.1) dr.2 := rfl

theorem readDeps_join (rest : List Nat) :
    ∀ (ds : List ID) (acc : List ID),
      (∀ d ∈ ds, d.length = 32) → (acc ++ ds).Nodup →
      readDeps ds.length acc (bytesJoin ds ++ rest) = some (acc ++ ds, rest) := by
  intro ds
  induction ds with
  | nil => intro acc _ _; simp [bytesJoin, readDeps]
  | cons d ds ih =>
    intro acc hlen hnd
    have hd32 : d.length = 32 := hlen d (by simp)
    rw [show bytesJoin (d :: ds) = d ++ bytesJoin ds from rfl]
    rw [List.length_cons, readDeps_succ, List.append_assoc]
    rw [readExact_append d (bytesJoin ds ++ rest) 32 hd32]
    have hnotin : d ∉ acc := by
      intro hmem
      rw [List.nodup_append] at hnd
      exact hnd.2.2 hmem (List.mem_cons_self d ds)
    have hins : depsInsert acc d = acc ++ [d] := by simp [depsInsert, hnotin]
    show readDeps ds.length (depsInsert acc d) (bytesJoin ds ++ rest)
      = some (acc ++ d :: ds, rest)
    rw [hins]
    have hnd' : ((acc ++ [d]) ++ ds).Nodup := by simpa [List.append_assoc] using hnd
    have := ih (acc ++ [d]) (fun d' hd' => hlen d' (by simp [hd'])) hnd'
    simpa [List.append_assoc] using this

theorem readExact_exact (l : List Nat) : readExact l.length l = some (l, []) := by
  simpa using readExact_append l [] l.length rfl

/-- C4: every patch produced by `Patch::new` or `Patch::read` carries as id
the digest of author bytes, followed by each parent in the recorded deps
order, followed by the payload. -/
theorem c4_id_is_digest_of_hash_input (H : List Nat → ID) :
    (∀ (key : SigningKey) (deps : List ID) (data : List Nat),
        (Patch.new H key deps data).id
          = H (hashInput (Patch.new H key deps data).author
              (Patch.new H key deps data).deps (Patch.new H key deps data).data)) ∧
      ∀ (l : List Nat) (p : Patch), Patch.read H l = some p →
        p.id = H (hashInput p.author p.deps p.data) := by
  constructor
  · intro key deps data
    rfl
  · intro l p h
    unfold Patch.read at h
    cases h1 : readVarint l with
    | none => rw [h1] at h; simp at h
    | some a =>
      rw [h1, Option.some_bind] at h
      cases h2 : readVarint a.2 with
      | none => rw [h2] at h; simp at h
      | some b =>
        rw [h2, Option.some_bind] at h
        cases h3 : readExact 32 b.2 with
        | none => rw [h3] at h; simp at h
        | some r =>
          rw [h3, Option.some_bind] at h
          cases h4 : readExact 32 r.2 with
          | none => rw [h4] at h; simp at h
          | some s =>
            rw [h4, Option.some_bind] at h
            cases h5 : readExact 32 s.2 with
            | none => rw [h5] at h; simp at h
            | some au =>
              rw [h5, Option.some_bind] at h
              cases h6 : readDeps a.1 [] au.2 with
              | none => rw [h6] at h; simp at h
              | some ds =>
                rw [h6, Option.some_bind] at h
                cases h7 : readExact b.1 ds.2 with
                | none => rw [h7] at h; simp at h
                | some dt =>
                  rw [h7, Option.some_bind] at h
                  injection h with h
                  rw [← h]

/-- The byte frame of an empty patch: no deps, no payload, zero signature
components and author. -/
def bytes0 : List Nat := 0 :: 0 :: List.replicate 96 0

/-- The patch that `Patch::read` parses out of `bytes0` under `sumHash`. -/
def p0Read : Patch :=
  ⟨sumHash (hashInput zeros32 [] []), [], zeros32, zeros32, zeros32, []⟩

theorem c4_witness :
    Patch.read sumHash bytes0 = some p0Read ∧
      p0Read.id = sumHash (hashInput p0Read.author p0Read.deps p0Read.data) :=
  ⟨by decide, (c4_id_is_digest_of_hash_input sumHash).2 bytes0 p0Read (by decide)⟩

/-- A patch whose deps iterator repeats an id non-adjacently: `Vec::dedup`
leaves the duplicate in place. -/
def pDup : Patch := Patch.new sumHash keyC [ones32, twos32, ones32] [7]

/-- The patch that the binary round trip of `pDup` actually produces: the
deps loop of `Patch::read` deduplicates through `Deps::insert`, so the deps
collapse to two entries and the recomputed id differs. -/
def pDupRead : Patch := Patch.new sumHash keyC [ones32, twos32] [7]

/-- C5 counterexample: for the `Patch::new` output whose deps are
[a, b, a], `read(write(p))` succeeds but returns a different patch (deps
deduplicated to [a, b], id recomputed over the shorter hash input), so the
round-trip equality claimed for every patch fails. -/
theorem c5_counterexample :
    Patch.read sumHash (Patch.write pDup) = some pDupRead ∧
      patchEq pDup pDupRead = false := by
  constructor
  · decide
  · decide

/-- C5 amended: the binary round trip restores the patch exactly for every
patch with well-formed field widths, duplicate-free deps and id equal to the
content hash — in particular the author, signature and payload are preserved,
so the result still verifies under the same author. -/
theorem c5_write_read_roundtrip (H : List Nat → ID) (p : Patch)
    (hid : p.id = Patch.hash H p)
    (hnd : p.deps.Nodup)
    (hdl : ∀ d ∈ p.deps, d.length = 32)
    (hr : p.sigR.length = 32) (hs : p.sigS.length = 32) (ha : p.author.length = 32)
    (hdepsn : p.deps.length < 2 ^ 32) (hdatan : p.data.length < 2 ^ 32) :
    Patch.read H (Patch.write p) = some p := by
  obtain ⟨pid, pdeps, pauthor, psigR, psigS, pdata⟩ := p
  simp only [Patch.hash, hashInput] at hid
  simp only at hnd hdl hr hs ha hdepsn hdatan
  unfold Patch.write Patch.read
  simp only [List.append_assoc]
  rw [Nat.mod_eq_of_lt hdepsn, Nat.mod_eq_of_lt hdatan]
  rw [readVarint_write _ hdepsn, Option.some_bind]
  rw [readVarint_write _ hdatan, Option.some_bind]
  rw [readExact_append psigR _ 32 hr, Option.some_bind]
  rw [readExact_append psigS _ 32 hs, Option.some_bind]
  rw [readExact_append pauthor _ 32 ha, Option.some_bind]
  have hjoin := readDeps_join pdata pdeps [] hdl (by simpa using hnd)
  simp only [List.nil_append] at hjoin
  rw [hjoin, Option.some_bind]
  rw [readExact_exact pdata, Option.some_bind]
  rw [hid]
  rfl

/-- A duplicate-free two-parent patch for the round-trip witness. -/
def pGood : Patch := Patch.new sumHash keyC [ones32, twos32] [8]

theorem c5_witness : Patch.read sumHash (Patch.write pGood) = some pGood :=
  c5_write_read_roundtrip sumHash pGood (by decide) (by decide) (by decide)
    (by decide) (by decide) (by decide) (by decide) (by decide)

/-- C6: `Patch::new` does not canonicalize a deps iterator with a
non-adjacent duplicate: `Deps::from_iter` calls `Vec::dedup`, which removes
only consecutive repeats, so [a, b, a] is stored as given rather than as the
duplicate-free first-seen sequence [a, b]. -/
theorem c6_dedup_keeps_nonadjacent_duplicate :
    (Patch.new sumHash keyC [ones32, twos32, ones32] [7]).deps
        = [ones32, twos32, ones32] ∧
      ([ones32, twos32, ones32] : List ID) ≠ [ones32, twos32] := by
  constructor
  · decide
  · decide

/-- A raw patch with deps [a] and payload [1]. -/
def qData1 : Patch := ⟨zeros32, [ones32], zeros32, zeros32, zeros32, [1]⟩

/-- A raw patch agreeing with `qData1` on id and deps but not on payload. -/
def qData2 : Patch := ⟨zeros32, [ones32], zeros32, zeros32, zeros32, [2]⟩

/-- C7 counterexample: the `Deps` comparison is not symmetric once a Deps
value carries duplicates ([a, b] equals [a, a] but not conversely), and Patch
equality is not implied by matching ids plus equal deps, since the derived
`PartialEq` also compares author, signature and payload. -/
theorem c7_counterexample :
    depsEq [ones32, twos32] [ones32, ones32] = true ∧
      depsEq [ones32, ones32] [ones32, twos32] = false ∧
      qData1.id = qData2.id ∧ depsEq qData1.deps qData2.deps = true ∧
      patchEq qData1 qData2 = false := by decide

/-- C7 amended: Patch equality holds iff the ids match, the deps compare
equal under the Deps comparison, and author, signature and payload agree; the
Deps comparison coincides with set equality (hence is order-insensitive and
symmetric) on duplicate-free Deps values. -/
theorem c7_patch_equality_semantics :
    (∀ p q : Patch, patchEq p q = true ↔
        p.id = q.id ∧ depsEq p.deps q.deps = true ∧ p.author = q.author ∧
          p.sigR = q.sigR ∧ p.sigS = q.sigS ∧ p.data = q.data) ∧
      ∀ d1 d2 : List ID, d1.Nodup → d2.Nodup →
        (depsEq d1 d2 = true ↔ ∀ x, x ∈ d1 ↔ x ∈ d2) := by
  constructor
  · intro p q
    simp only [patchEq, Bool.and_eq_true, decide_eq_true_iff]
    tauto
  · intro d1 d2 h1 h2
    unfold depsEq
    by_cases hlen : d1.length = d2.length
    · rw [if_pos hlen]
      simp only [List.all_eq_true, decide_eq_true_iff]
      constructor
      · intro hsub x
        have hsub' : d2.toFinset ⊆ d1.toFinset := by
          intro y hy
          exact List.mem_toFinset.mpr (hsub y (List.mem_toFinset.mp hy))
        have hcard : d1.toFinset.card ≤ d2.toFinset.card := by
          rw [List.toFinset_card_of_nodup h1, List.toFinset_card_of_nodup h2, hlen]
        have hfs := Finset.eq_of_subset_of_card_le hsub' hcard
        constructor
        · intro hx
          have hx' : x ∈ d1.toFinset := List.mem_toFinset.mpr hx
          rw [← hfs] at hx'
          exact List.mem_toFinset.mp hx'
        · intro hx
          exact hsub x hx
      · intro hiff x hx
        exact (hiff x).mpr hx
    · rw [if_neg hlen]
      constructor
      · intro hfalse
        cases hfalse
      · intro hiff
        exfalso
        apply hlen
        have hfs : d1.toFinset = d2.toFinset :=
          Finset.ext fun x => by
            simp only [List.mem_toFinset]
            exact hiff x
        calc d1.length = d1.toFinset.card := (List.toFinset_card_of_nodup h1).symm
          _ = d2.toFinset.card := by rw [hfs]
          _ = d2.length := List.toFinset_card_of_nodup h2

theorem c7_witness :
    ∀ x : ID, x ∈ [ones32, twos32] ↔ x ∈ [twos32, ones32] :=
  (c7_patch_equality_semantics.2 [ones32, twos32] [twos32, ones32]
    (by decide) (by decide)).mp (by decide)

end Storyteller
